import Mathlib

/-!
# Verification of the `ii.py` navigation/state core

A shallow embedding of the tree model, stream navigator and interaction
state machine of `ii.py` (together with `text_wrap` from `utils.py`).

Modelling conventions:
* Python lists are Lean `List`s, Python strings are `List Char`,
  Python `int` is `Int` (or `Nat` where the source only ever stores
  non-negative values: child indices in the current stream, ids, counts).
* Operations that can raise `IndexError` return `Option`, with `none`
  marking the raised exception; pure Python code is embedded as pure
  functions.
* Python's negative-index list access and slicing are embedded by
  `pyGet`, `pyTake`, `pyDrop` below.
* The source compares small integers with `is`; for the values that occur
  (CPython interns small ints) this is equality, and it is embedded as `=`.
* `Node.node_id` is a global counter in the source; a single run of the
  program only ever creates nodes of one tree, so it is embedded as the
  tree-owned counter `next_id`.  `time.time()` is embedded as the
  monotone tree-owned counter `clock` (only relative creation order is
  ever observable in the core).
* The `initial_timer` configuration value (20 or 100 depending on
  `--autoloop`) is passed around as the parameter `cfg`.
-/

namespace II

/-- Python list indexing `l[i]`: a negative index counts from the end and
an index out of range raises `IndexError` (embedded as `none`). -/
def pyGet {α : Type} (l : List α) (i : Int) : Option α :=
  if 0 ≤ i then l.get? i.toNat
  else if 0 ≤ (l.length : Int) + i then l.get? ((l.length : Int) + i).toNat
  else none

/-- Python prefix slice `l[:k]` (total; a negative `k` counts from the end). -/
def pyTake {α : Type} (l : List α) (k : Int) : List α :=
  if 0 ≤ k then l.take k.toNat else l.take ((l.length : Int) + k).toNat

/-- Python suffix slice `l[k:]` (total; a negative `k` counts from the end). -/
def pyDrop {α : Type} (l : List α) (k : Int) : List α :=
  if 0 ≤ k then l.drop k.toNat else l.drop ((l.length : Int) + k).toNat

/-- Python `text.split(' ')`: split on every single space, keeping empty
pieces (`''.split(' ') == ['']`). -/
def splitSpaces : List Char → List (List Char)
  | [] => [[]]
  | c :: rest =>
    match splitSpaces rest with
    | [] => []
    | w :: ws => if c = ' ' then [] :: w :: ws else (c :: w) :: ws

/-- The inner `while len(word) > line_length` loop of `text_wrap`: flush the
pending line once, then cut chunks of `ll` characters off the front of the
word.  Each iteration removes `ll ≥ 1` characters, so `word.length` bounds
the number of iterations and is used as structural fuel (for `ll = 0` the
source loop would not terminate; every call site uses `ll = 35`). -/
def wrapWordAux (ll : Nat) : Nat → List (List Char) → List Char → List Char →
    List (List Char) × List Char × List Char
  | 0, lines, line, word => (lines, line, word)
  | fuel + 1, lines, line, word =>
    if ll < word.length then
      let lines1 := if line = [] then lines else lines ++ [line]
      wrapWordAux ll fuel (lines1 ++ [word.take ll]) [] (word.drop ll)
    else (lines, line, word)

/-- One iteration of the `for word in words` loop of `text_wrap`. -/
def wrapStep (ll : Nat) (acc : List (List Char) × List Char) (word : List Char) :
    List (List Char) × List Char :=
  let r := wrapWordAux ll word.length acc.1 acc.2 word
  let lines := r.1
  let line := r.2.1
  let w := r.2.2
  if ll < line.length + w.length + 1 then (lines ++ [line], w)
  else (lines, if line = [] then w else line ++ [' '] ++ w)

/-- `text_wrap(text, line_length)` from `utils.py`. -/
def text_wrap (text : List Char) (ll : Nat) : List (List Char) :=
  let r := (splitSpaces text).foldl (wrapStep ll) ([], [])
  r.1 ++ [r.2]

/-- A tree node (`Node.__init__` in `ii.py`): text, creation time, id and
parent id are fixed at creation; `children` is the ordered child list
(`add_child` appends).  The Python `parent` object reference is represented
by the stored `parent_id` (the spec's non-owning reference by key). -/
inductive Node where
  | mk (text : List Char) (creation_time : Nat) (id : Nat) (parent_id : Option Nat)
      (children : List Node) : Node

def Node.text : Node → List Char
  | .mk t _ _ _ _ => t

def Node.creation_time : Node → Nat
  | .mk _ ct _ _ _ => ct

def Node.id : Node → Nat
  | .mk _ _ i _ _ => i

def Node.parent_id : Node → Option Nat
  | .mk _ _ _ p _ => p

def Node.children : Node → List Node
  | .mk _ _ _ _ cs => cs

def Node.withChildren : Node → List Node → Node
  | .mk t ct i p _, cs => .mk t ct i p cs

mutual
/-- Number of nodes in the subtree rooted at a node. -/
def countNodes : Node → Nat
  | .mk _ _ _ _ cs => 1 + countNodesList cs
def countNodesList : List Node → Nat
  | [] => 0
  | c :: cs => countNodes c + countNodesList cs
end

/-- One flat record of `collect_node_data`: text, parent text, creation
time, depth, id, parent id. -/
structure NodeRecord where
  node_text : List Char
  parent_text : List Char
  creation_time : Nat
  depth : Nat
  node_id : Nat
  parent_id : Option Nat
deriving DecidableEq

mutual
/-- `Tree.collect_node_data`: pre-order collection of one record per node,
starting from the node it is called on. -/
def collect_node_data : Node → List Char → Nat → List NodeRecord
  | .mk t ct i p cs, ptext, depth =>
    ⟨t, ptext, ct, depth, i, p⟩ :: collectChildren cs t (depth + 1)
def collectChildren : List Node → List Char → Nat → List NodeRecord
  | [], _, _ => []
  | c :: cs, ptext, depth => collect_node_data c ptext depth ++ collectChildren cs ptext depth
end

/-- The tree of `ii.py`: the root node plus the current stream (the
"current path" of branch indices), together with the id counter and the
creation clock (see the header comment). -/
structure Tree where
  root : Node
  current_stream : List Nat
  next_id : Nat
  clock : Nat

/-- `Tree.__init__`: a root with empty text (id 0, created at time 0) and an
empty current stream. -/
def Tree.new : Tree :=
  { root := .mk [] 0 0 none [], current_stream := [], next_id := 1, clock := 1 }

/-- The loop of `Tree.node_at_index`: follow the first `k` entries of the
stream from `n`, indexing into children; `none` is the `IndexError` raised
when the stream is shorter than `k` or a child index is out of range. -/
def descendSteps : Node → List Nat → Nat → Option Node
  | n, _, 0 => some n
  | _, [], _ + 1 => none
  | n, i :: rest, k + 1 =>
    match n.children.get? i with
    | none => none
    | some c => descendSteps c rest k

/-- `Tree.node_at_index(index)`: `range(index)` is empty for `index ≤ 0`,
so a non-positive index resolves to the root. -/
def Tree.node_at_index (t : Tree) (index : Int) : Option Node :=
  descendSteps t.root t.current_stream index.toNat

/-- Rebuild of the tree performed by `Tree.grow`'s mutation of
`selected_node`: walk the same `k` stream steps as `node_at_index` and
append `c` to the children of the node reached. -/
def insertSteps : Node → List Nat → Nat → Node → Option Node
  | n, _, 0, c => some (n.withChildren (n.children ++ [c]))
  | _, [], _ + 1, _ => none
  | n, i :: rest, k + 1, c =>
    match n.children.get? i with
    | none => none
    | some ch =>
      match insertSteps ch rest k c with
      | none => none
      | some ch' => some (n.withChildren (n.children.set i ch'))

/-- `Tree.grow(text, index)`: create a new child under the node at `index`,
truncate the stream to `index` entries and append the new child's branch
index (the previous child count of the selected node). -/
def Tree.grow (t : Tree) (text : List Char) (index : Int) : Option Tree :=
  match descendSteps t.root t.current_stream index.toNat with
  | none => none
  | some sel =>
    match insertSteps t.root t.current_stream index.toNat
        (.mk text t.clock t.next_id (some sel.id) []) with
    | none => none
    | some root' =>
      some { root := root',
             current_stream := pyTake t.current_stream index ++ [sel.children.length],
             next_id := t.next_id + 1,
             clock := t.clock + 1 }

/-- One entry of `Tree.get_stream`'s result. -/
structure StreamItem where
  text : List Char
  num_before : Nat
  num_after : Nat
deriving DecidableEq

/-- The loop of `Tree.get_stream`: walk the whole current stream, yielding
text, siblings-before count and siblings-after count at every depth. -/
def streamWalk : Node → List Nat → Option (List StreamItem)
  | _, [] => some []
  | n, step :: rest =>
    match n.children.get? step with
    | none => none
    | some c =>
      match streamWalk c rest with
      | none => none
      | some s => some (⟨c.text, step, n.children.length - step - 1⟩ :: s)

/-- `Tree.get_stream()`. -/
def Tree.get_stream (t : Tree) : Option (List StreamItem) :=
  streamWalk t.root t.current_stream

/-- The inner `while node.children` loop of `Tree.switch_stream`: descend to
a leaf along child 0 (for `increment ≥ 0`) or the last child, appending the
chosen branch index to the stream, and incrementing the returned index once
per step when `leaf_explore` is set.  Each step moves to a proper subtree,
so `countNodes` of the starting node bounds the number of iterations and is
used as structural fuel at the call site. -/
def extremalDescend (inc : Int) (le : Bool) : Nat → Node → List Nat → Int → List Nat × Int
  | 0, _, stream, index => (stream, index)
  | _ + 1, .mk _ _ _ _ [], stream, index => (stream, index)
  | fuel + 1, .mk _ _ _ _ (c :: cs), stream, index =>
    let index' := if le then index + 1 else index
    if 0 ≤ inc then extremalDescend inc le fuel c (stream ++ [0]) index'
    else extremalDescend inc le fuel (cs.getLastD c) (stream ++ [cs.length]) index'

/-- The `while index > 1` search loop of `Tree.switch_stream`, indexed by the
current (positive) value of `index`.  The result is `none` for a raised
exception, `some none` when the loop exhausts all levels without finding a
valid sibling, and `some (some (stream', index'))` on success. -/
def switchSearch (root : Node) (stream : List Nat) (inc : Int) (le : Bool) :
    Nat → Option (Option (List Nat × Int))
  | 0 => some none
  | 1 => some none
  | j + 2 =>
    match descendSteps root stream (j + 1), stream.get? (j + 1) with
    | some parent, some si =>
      let newIdx : Int := (si : Int) + inc
      if 0 ≤ newIdx ∧ newIdx < (parent.children.length : Int) then
        match parent.children.get? newIdx.toNat with
        | none => none
        | some node =>
          some (some (extremalDescend inc le (countNodes node) node
            (stream.take (j + 1) ++ [newIdx.toNat]) ((j : Int) + 2)))
      else switchSearch root stream inc le (j + 1)
    | _, _ => none

/-- `Tree.switch_stream(index, increment, leaf_explore)`: returns the new
current stream together with the returned index (`none` for a raised
exception).  On the no-sibling-found path the stream is unchanged and the
original index is returned. -/
def Tree.switch_stream (t : Tree) (index : Int) (inc : Int) (le : Bool) :
    Option (List Nat × Int) :=
  let le' := le || decide (index = (t.current_stream.length : Int))
  match switchSearch t.root t.current_stream inc le' index.toNat with
  | none => none
  | some none => some (t.current_stream, index)
  | some (some r) => some r

/-- The record list built by `Tree.export_tree_to_csv` (the rows handed to
the CSV writer; the file I/O itself is the excluded persistence adapter):
`collect_node_data(self.root, '', data)`. -/
def Tree.export_records (t : Tree) : List NodeRecord :=
  collect_node_data t.root [] 0

/-- `column_width` as set in `Editor.__init__`. -/
def column_width : Nat := 35

/-- The editor state of `ii.py` (`Editor.__init__`), restricted to the core
fields (the terminal handle, styling lambdas and display buffer belong to
the excluded renderer). -/
structure Editor where
  tree : Tree
  reading_mode : Bool
  selected_index : Int
  line_in_para : Int
  current_text : List Char
  cursor_position : Int
  current_timer : Int
  shuttle : List (List Char)

/-- The initial editor state: writing mode, empty tree and path,
`selected_index = 0`, timer at the configured initial value. -/
def initial_editor (cfg : Int) : Editor :=
  { tree := Tree.new, reading_mode := false, selected_index := 0, line_in_para := 0,
    current_text := [], cursor_position := 0, current_timer := cfg, shuttle := [] }

/-- `Editor.lines_in_current_para`:
`1 + len(text_wrap(get_stream()[selected_index-1]["text"], column_width))`. -/
def Editor.lines_in_current_para (e : Editor) : Option Nat :=
  match e.tree.get_stream with
  | none => none
  | some s =>
    match pyGet s (e.selected_index - 1) with
    | none => none
    | some item => some (1 + (text_wrap item.text column_width).length)

/-- `Editor.set_reading_mode`. -/
def Editor.set_reading_mode (cfg : Int) (e : Editor) : Option Editor :=
  let e1 := { e with reading_mode := true, line_in_para := 0, current_text := [],
                     cursor_position := 0, selected_index := e.selected_index + 1 }
  if (e1.tree.current_stream.length : Int) < e1.selected_index then
    match e1.tree.switch_stream (e1.selected_index - 1) 1 true with
    | none => none
    | some (s', _) =>
      some { e1 with tree := { e1.tree with current_stream := s' }, selected_index := 1,
                     current_timer := cfg }
  else some { e1 with current_timer := cfg }

/-- `Editor.next_para(keep_in_reading_mode)`. -/
def Editor.next_para (e : Editor) (keep : Bool) : Editor :=
  let e1 := { e with line_in_para := 0 }
  if e1.selected_index = (e1.tree.current_stream.length : Int) then
    if keep then e1 else { e1 with reading_mode := false }
  else { e1 with selected_index := e1.selected_index + 1 }

/-- `Editor.prev_para`. -/
def Editor.prev_para (e : Editor) : Editor :=
  let e1 := { e with line_in_para := 0 }
  if 1 < e1.selected_index then { e1 with selected_index := e1.selected_index - 1 } else e1

/-- `Editor.prev_line`. -/
def Editor.prev_line (e : Editor) : Option Editor :=
  if e.reading_mode then
    let e1 := { e with line_in_para := e.line_in_para - 1 }
    if e1.line_in_para = -1 then
      if e1.selected_index = 1 then some { e1 with line_in_para := 0 }
      else
        let e2 := { e1 with selected_index := e1.selected_index - 1 }
        match e2.lines_in_current_para with
        | none => none
        | some l => some { e2 with line_in_para := (l : Int) - 1 }
    else some e1
  else
    let e1 := { e with reading_mode := true }
    match e1.lines_in_current_para with
    | none => none
    | some l => some { e1 with line_in_para := (l : Int) - 1 }

/-- `Editor.next_line`. -/
def Editor.next_line (e : Editor) (cfg : Int) : Option Editor :=
  if e.reading_mode then
    let e1 := { e with line_in_para := e.line_in_para + 1 }
    match e1.lines_in_current_para with
    | none => none
    | some l => if (l : Int) ≤ e1.line_in_para then some (e1.next_para false) else some e1
  else
    let e1 := { e with current_timer := e.current_timer - 1 }
    if e1.current_timer = 0 then e1.set_reading_mode cfg else some e1

/-- `Editor.submit_para`. -/
def Editor.submit_para (e : Editor) (cfg : Int) : Option Editor :=
  match e.tree.grow e.current_text e.selected_index with
  | none => none
  | some t' =>
    some { e with tree := t', selected_index := e.selected_index + 1,
                  current_text := [], cursor_position := 0, current_timer := cfg }

/-- The `for _ in range(n): self.prev_line()` loop of the Escape handler. -/
def iterPrevLine : Nat → Editor → Option Editor
  | 0, e => some e
  | k + 1, e =>
    match e.prev_line with
    | none => none
    | some e' => iterPrevLine k e'

/-- `self.selected_index = self.tree.switch_stream(self.selected_index, inc)`
as performed by the arrow-key and h/l/m/i handlers in reading mode. -/
def Editor.lateralMove (e : Editor) (inc : Int) : Option Editor :=
  match e.tree.switch_stream e.selected_index inc false with
  | none => none
  | some (s', i') =>
    some { e with tree := { e.tree with current_stream := s' }, selected_index := i' }

/-- The reading-mode part of the printable-character handler of
`handle_keypress` (j/n, k/e, h/m, l/i, p). -/
def Editor.charReading (e : Editor) (c : Char) : Option Editor :=
  if c = 'j' ∨ c = 'n' then some (e.next_para true)
  else if c = 'k' ∨ c = 'e' then some e.prev_para
  else if c = 'h' ∨ c = 'm' then e.lateralMove (-1)
  else if c = 'l' ∨ c = 'i' then e.lateralMove 1
  else if c = 'p' then
    match e.tree.get_stream with
    | none => none
    | some s =>
      match pyGet s (e.selected_index - 1) with
      | none => none
      | some item => some { e with shuttle := e.shuttle ++ [item.text] }
  else some e

/-- An input event as delivered to `Editor.handle_keypress`: a named control
key, a printable character, or the timeout marker (empty key). -/
inductive Key where
  | enter
  | tab
  | backspace
  | right
  | left
  | down
  | up
  | escape
  | char (c : Char)
  | timer
deriving DecidableEq

/-- `Editor.handle_keypress(key)`. -/
def Editor.handle_keypress (e : Editor) (cfg : Int) (k : Key) : Option Editor :=
  match k with
  | .enter =>
    if e.reading_mode then some { e with reading_mode := false }
    else if e.current_text ≠ [] then e.submit_para cfg
    else if e.selected_index < (e.tree.current_stream.length : Int) then e.set_reading_mode cfg
    else some e
  | .tab =>
    if e.reading_mode then some (e.next_para false)
    else if e.tree.current_stream ≠ [] then e.set_reading_mode cfg
    else some e
  | .backspace =>
    if e.current_text ≠ [] ∧ e.reading_mode = false then
      some { e with
        current_text :=
          pyTake e.current_text (e.cursor_position - 1) ++ pyDrop e.current_text e.cursor_position,
        cursor_position := max 0 (e.cursor_position - 1) }
    else some e
  | .right =>
    if e.reading_mode then e.lateralMove 1
    else some { e with
      cursor_position := min (e.current_text.length : Int) (e.cursor_position + 1) }
  | .left =>
    if e.reading_mode then e.lateralMove (-1)
    else some { e with cursor_position := max 0 (e.cursor_position - 1) }
  | .down => e.next_line cfg
  | .up => e.prev_line
  | .escape =>
    if e.reading_mode then some e
    else
      match (if e.current_text ≠ [] then e.submit_para cfg else some e) with
      | none => none
      | some e1 => iterPrevLine (1 + (text_wrap e1.current_text column_width).length) e1
  | .char c =>
    match (if e.reading_mode then e.charReading c else some e) with
    | none => none
    | some e1 =>
      if e1.reading_mode then some e1
      else some { e1 with
        current_text :=
          pyTake e1.current_text e1.cursor_position ++ [c] ++ pyDrop e1.current_text e1.cursor_position,
        cursor_position := e1.cursor_position + 1 }
  | .timer => e.next_line cfg

/-- Dispatch a list of events from the initial state (the main loop of
`ii.py`); `none` marks a raised exception at some step. -/
def run_keys (cfg : Int) (ks : List Key) : Option Editor :=
  ks.foldl (fun acc k => acc.bind (fun e => e.handle_keypress cfg k)) (some (initial_editor cfg))

/-- Iterated timer-expiry events (timeouts with no key pressed). -/
def timerRun (cfg : Int) : Nat → Editor → Option Editor
  | 0, e => some e
  | k + 1, e =>
    match e.handle_keypress cfg Key.timer with
    | none => none
    | some e' => timerRun cfg k e'

/-- The level `j1 + 1` of the upward search is examined and offers no valid
sibling: its parent and stream entry resolve, but the stream entry plus the
increment falls outside the parent's child-count range. -/
def siblingBlocked (root : Node) (stream : List Nat) (inc : Int) (j1 : Nat) : Bool :=
  match descendSteps root stream j1, stream.get? j1 with
  | some parent, some si =>
    !(decide (0 ≤ (si : Int) + inc ∧ (si : Int) + inc < (parent.children.length : Int)))
  | _, _ => false

/-- Every level from `j` down to 2 is examined by the upward search and
offers no valid sibling (the search exhausts without finding one). -/
def searchExhausts (root : Node) (stream : List Nat) (inc : Int) : Nat → Bool
  | 0 => true
  | 1 => true
  | j + 2 => siblingBlocked root stream inc (j + 1) && searchExhausts root stream inc (j + 1)

/-- The whole current stream resolves by repeated child indexing (the path
invariant of the spec). -/
def streamValid (root : Node) (stream : List Nat) : Bool :=
  (descendSteps root stream stream.length).isSome

/-- Modelled from the spec: the Escape transition of section 4.3 of the spec -
in writing mode submit any pending text, then issue "previous line" once per
wrapped display line of the text that was just submitted, plus one.  (Kept
separate from `handle_keypress` so the two behaviours can be compared.) -/
def Editor.escapeSpec (e : Editor) (cfg : Int) : Option Editor :=
  if e.reading_mode then some e
  else
    let k := (text_wrap e.current_text column_width).length
    match (if e.current_text ≠ [] then e.submit_para cfg else some e) with
    | none => none
    | some e1 => iterPrevLine (k + 1) e1

/-- `0 ≤ cursor_position ≤ len(current_text)` - the cursor invariant. -/
def invOK (e : Editor) : Prop :=
  0 ≤ e.cursor_position ∧ e.cursor_position ≤ (e.current_text.length : Int)

/-- Concrete tree root -> A -> \x7bB, B2\x7d with B -> C -> D (ids in creation
order), current stream [0,0,0,0] pointing at D. -/
def nodeD : Node := .mk ['d'] 4 4 (some 3) []

def nodeC : Node := .mk ['c'] 3 3 (some 2) [nodeD]

def nodeB : Node := .mk ['b'] 2 2 (some 1) [nodeC]

def nodeB2 : Node := .mk ['B'] 5 5 (some 1) []

def nodeA : Node := .mk ['a'] 1 1 (some 0) [nodeB, nodeB2]

def rootDeep : Node := .mk [] 0 0 none [nodeA]

def treeDeep : Tree := ⟨rootDeep, [0, 0, 0, 0], 6, 6⟩

/-- Concrete tree root -> \x7bA1 -> B, A2\x7d, current stream [0,0] pointing at B:
the only sibling anywhere is at the root level. -/
def nodeRB : Node := .mk ['b'] 2 2 (some 1) []

def nodeRA1 : Node := .mk ['a'] 1 1 (some 0) [nodeRB]

def nodeRA2 : Node := .mk ['A'] 3 3 (some 0) []

def rootWide : Node := .mk [] 0 0 none [nodeRA1, nodeRA2]

def treeWide : Tree := ⟨rootWide, [0, 0], 4, 4⟩

/-- Concrete tree root -> A -> \x7bB -> C, B2\x7d, current stream [0,0,0]:
a sibling is available exactly at depth 2. -/
def nodeWC : Node := .mk ['c'] 3 3 (some 2) []

def nodeWB : Node := .mk ['b'] 2 2 (some 1) [nodeWC]

def nodeWB2 : Node := .mk ['B'] 4 4 (some 1) []

def nodeWA : Node := .mk ['a'] 1 1 (some 0) [nodeWB, nodeWB2]

def rootMid : Node := .mk [] 0 0 none [nodeWA]

def treeMid : Tree := ⟨rootMid, [0, 0, 0], 5, 5⟩

/-- Concrete single-child lineage root -> A -> B, current stream [0,0]:
no sibling exists anywhere. -/
def nodeSB : Node := .mk ['b'] 2 2 (some 1) []

def nodeSA : Node := .mk ['a'] 1 1 (some 0) [nodeSB]

def rootSingle : Node := .mk [] 0 0 none [nodeSA]

def treeSingle : Tree := ⟨rootSingle, [0, 0], 3, 3⟩

/-- A writing-mode state with forty pending characters (wrapping to two
display lines at `column_width` 35), as reached from the initial state by
typing forty characters. -/
def editorLongText : Editor :=
  { initial_editor 20 with current_text := List.replicate 40 'x', cursor_position := 40 }

/-- The editor state reached from the initial state by typing 'a' and
pressing the left arrow once. -/
def editorAfterALeft : Editor :=
  { initial_editor 20 with current_text := ['a'], cursor_position := 0 }

end II

namespace II

/-- With `leaf_explore` false the extremal leaf descent never changes the
index it will return, whatever the fuel. -/
theorem extremalDescend_snd (inc : Int) (fuel : Nat) :
    ∀ (n : Node) (s : List Nat) (i : Int), (extremalDescend inc false fuel n s i).2 = i := by
  induction fuel with
  | zero => intro n s i; rfl
  | succ k ih =>
    intro n s i
    match n with
    | Node.mk _ _ _ _ [] => rfl
    | Node.mk _ _ _ _ (c :: cs) =>
      simp only [extremalDescend, Bool.false_eq_true, if_false]
      split <;> exact ih _ _ _

/-- If every level from `j` down to 2 is blocked, the search loop of
`switch_stream` terminates without finding a sibling. -/
theorem searchExhausts_noop (root : Node) (stream : List Nat) (inc : Int) (le : Bool) :
    ∀ j, searchExhausts root stream inc j = true →
      switchSearch root stream inc le j = some none
  | 0, _ => rfl
  | 1, _ => rfl
  | j + 2, h => by
    rw [searchExhausts, Bool.and_eq_true] at h
    obtain ⟨hb, hrest⟩ := h
    unfold siblingBlocked at hb
    unfold switchSearch
    cases hd : descendSteps root stream (j + 1) with
    | none => rw [hd] at hb; simp at hb
    | some parent =>
      cases hs : stream.get? (j + 1) with
      | none => rw [hd, hs] at hb; simp at hb
      | some si =>
        rw [hd, hs] at hb
        simp only [Bool.not_eq_eq_eq_not, Bool.not_true, decide_eq_false_iff_not] at hb
        simp only [hd, hs]
        rw [if_neg hb]
        exact searchExhausts_noop root stream inc le (j + 1) hrest

end II

namespace II

/-- C6: whenever `switch_stream` exhausts its upward search without finding a
valid sibling at any level, it is a no-op, not an error: the current stream
is left completely unchanged and the original depth argument is returned,
and calling it again on the result (same arguments) gives the same answer. -/
theorem switch_stream_exhausted_noop (t : Tree) (index inc : Int) (le : Bool)
    (h : searchExhausts t.root t.current_stream inc index.toNat = true) :
    t.switch_stream index inc le = some (t.current_stream, index)
    ∧ (t.switch_stream index inc le).bind
        (fun r => Tree.switch_stream { t with current_stream := r.1 } r.2 inc le) =
      some (t.current_stream, index) := by
  have h1 : t.switch_stream index inc le = some (t.current_stream, index) := by
    have h2 := searchExhausts_noop t.root t.current_stream inc
      (le || decide (index = (t.current_stream.length : Int))) index.toNat h
    simp only [Tree.switch_stream, h2]
  refine ⟨h1, ?_⟩
  rw [h1]
  exact h1

/-- Witness for C6 on a single-child lineage (root -> A -> B, stream [0,0]). -/
theorem switch_stream_exhausted_noop_witness :
    treeSingle.switch_stream 2 1 false = some ([0, 0], 2)
    ∧ (treeSingle.switch_stream 2 1 false).bind
        (fun r => Tree.switch_stream { treeSingle with current_stream := r.1 } r.2 1 false) =
      some ([0, 0], 2) :=
  switch_stream_exhausted_noop treeSingle 2 1 false (by decide)

/-- C3 counterexample: on root -> [A1 -> B, A2] with stream [0,0], every
level deeper than 1 is blocked and the root does have a child at index
`path[0] + 1`, yet `switch_stream(2, +1)` leaves the path unchanged instead
of switching to the root-level sibling. -/
theorem switch_stream_root_level_not_examined_cex :
    searchExhausts rootWide [0, 0] 1 2 = true
    ∧ (0 ≤ (0 : Int) + 1 ∧ (0 : Int) + 1 < (rootWide.children.length : Int))
    ∧ treeWide.switch_stream 2 1 false = some ([0, 0], 2)
    ∧ ([0, 0] : List Nat) ≠ [1] := by
  refine ⟨by decide, by decide, by decide, by decide⟩

/-- C3 (amended): the upward search of `switch_stream` only examines levels
from `depth` down to 2 (the `while index > 1` loop never treats the root as
a parent); if all those levels are blocked the path is left unchanged and
the original depth returned, even when the root has a valid sibling for the
first path entry. -/
theorem switch_stream_ignores_root_level_sibling (t : Tree) (index inc : Int) (le : Bool)
    (s0 : Nat)
    (h : searchExhausts t.root t.current_stream inc index.toNat = true)
    (h0 : t.current_stream.get? 0 = some s0)
    (hroot : 0 ≤ (s0 : Int) + inc ∧ (s0 : Int) + inc < (t.root.children.length : Int)) :
    t.switch_stream index inc le = some (t.current_stream, index) := by
  have h2 := searchExhausts_noop t.root t.current_stream inc
    (le || decide (index = (t.current_stream.length : Int))) index.toNat h
  simp only [Tree.switch_stream, h2]

/-- Witness for the amended C3 on root -> [A1 -> B, A2] with stream [0,0]. -/
theorem switch_stream_ignores_root_level_sibling_witness :
    treeWide.switch_stream 2 1 false = some ([0, 0], 2) :=
  switch_stream_ignores_root_level_sibling treeWide 2 1 false 0 (by decide) rfl (by decide)

/-- C2 counterexample: on root -> A -> [B, B2] with B -> C -> D and stream
[0,0,0,0], `switch_stream(3, +1, leaf_explore=false)` (3 < path length 4, so
leaf exploration is not forced) climbs one level, succeeds at level 2, and
returns depth 2, not the depth 3 that was passed in. -/
theorem switch_stream_depth_not_anchored_cex :
    treeDeep.switch_stream 3 1 false = some ([0, 1], 2)
    ∧ (2 : Int) ≠ 3 := by
  refine ⟨by decide, by decide⟩

end II

namespace II

/-- C2 (amended): with `leaf_explore` false and the switch depth strictly
below the path length, if the level `depth` itself offers a valid sibling
(the search succeeds without climbing), the returned depth equals the depth
argument; when the search climbs first, the returned depth is the level
where the sibling was found (see the counterexample). -/
theorem switch_stream_anchored_when_found_at_depth (t : Tree) (inc : Int) (j : Nat)
    (p : Node) (si : Nat)
    (hlen : j + 2 < t.current_stream.length)
    (hp : descendSteps t.root t.current_stream (j + 1) = some p)
    (hsi : t.current_stream.get? (j + 1) = some si)
    (hvalid : 0 ≤ (si : Int) + inc ∧ (si : Int) + inc < (p.children.length : Int)) :
    ∃ s', t.switch_stream ((j : Int) + 2) inc false = some (s', (j : Int) + 2) := by
  have hne : ¬ ((j : Int) + 2 = (t.current_stream.length : Int)) := by omega
  have htn : ((j : Int) + 2).toNat = j + 2 := by omega
  have hlt : ((si : Int) + inc).toNat < p.children.length := by omega
  obtain ⟨node, hnode⟩ : ∃ node, p.children.get? ((si : Int) + inc).toNat = some node :=
    ⟨_, List.get?_eq_get hlt⟩
  have hsearch : switchSearch t.root t.current_stream inc false (j + 2) =
      some (some (extremalDescend inc false (countNodes node) node
        (t.current_stream.take (j + 1) ++ [((si : Int) + inc).toNat]) ((j : Int) + 2))) := by
    unfold switchSearch
    simp only [hp, hsi]
    rw [if_pos hvalid]
    simp only [hnode]
  refine ⟨(extremalDescend inc false (countNodes node) node
    (t.current_stream.take (j + 1) ++ [((si : Int) + inc).toNat]) ((j : Int) + 2)).1, ?_⟩
  simp only [Tree.switch_stream, decide_eq_false hne, Bool.or_false, htn, hsearch]
  exact congrArg some (Prod.ext rfl (extremalDescend_snd inc (countNodes node) node
    (t.current_stream.take (j + 1) ++ [((si : Int) + inc).toNat]) ((j : Int) + 2)))

/-- Witness for the amended C2 on root -> A -> [B -> C, B2] with stream
[0,0,0]: the sibling at depth 2 is valid and depth 2 is returned. -/
theorem switch_stream_anchored_when_found_at_depth_witness :
    ∃ s', treeMid.switch_stream ((0 : Int) + 2) 1 false = some (s', (0 : Int) + 2) :=
  switch_stream_anchored_when_found_at_depth treeMid 1 0 nodeWA 0 (by decide) rfl rfl
    (by decide)

end II

namespace II

/-- C1: evaluation of the code at the failing input — from the initial state
(writing mode, empty path, `selected_index = 0`) a single arrow-up key event
raises (`prev_line` computes `lines_in_current_para`, which evaluates
`get_stream()[-1]` on the empty stream), so dispatch is not exception-free
over reachable states. -/
theorem up_keypress_at_initial_state_raises :
    (initial_editor 20).handle_keypress 20 Key.up = none := rfl

/-- C9: evaluation of the code at the failing input — from the initial state,
typing 'a' then 'b', pressing the left arrow twice (cursor 0, text "ab") and
then Backspace yields the text "aab": `current_text[:cursor_position-1]`
with a cursor at 0 is the Python negative slice `[:-1]`, so the handler
prepends the text minus its last character instead of leaving the text
unchanged. -/
theorem backspace_cursor_zero_divergence :
    (run_keys 20 [.char 'a', .char 'b', .left, .left, .backspace]).map Editor.current_text
      = some ['a', 'a', 'b']
    ∧ (['a', 'a', 'b'] : List Char) ≠ ['a', 'b'] := by
  refine ⟨by decide, by decide⟩

/-- C8: evaluation of the code at the failing input - in writing mode with a
forty-character pending text (two wrapped lines), Escape submits and then
issues "previous line" only `1 + len(text_wrap(current_text))` times with
`current_text` already cleared by the submit, i.e. exactly twice, landing at
`line_in_para = 1`; the behaviour the claim describes (`escapeSpec`, k + 1
previous-line calls with k the wrapped line count of the submitted text)
lands at `line_in_para = 0`. -/
theorem escape_unwind_count_divergence :
    ((editorLongText.handle_keypress 20 Key.escape).map Editor.line_in_para = some 1)
    ∧ ((editorLongText.escapeSpec 20).map Editor.line_in_para = some 0)
    ∧ (1 : Int) ≠ 0 := by
  refine ⟨by decide, by decide, by decide⟩

/-- C5 counterexample: after `grow("hello", 0)` on a fresh tree the export
record list has exactly two entries (the root's own record is included by
`collect_node_data(self.root, '', data)`), not one. -/
theorem export_includes_root_cex :
    (Tree.new.grow "hello".toList 0).map (fun t => t.export_records.length) = some 2
    ∧ (2 : Nat) ≠ 1 := by
  refine ⟨by decide, by decide⟩

/-- Structural induction principle for `Node` via child membership. -/
theorem Node.ind_mem {P : Node → Prop}
    (h : ∀ t ct i p cs, (∀ c ∈ cs, P c) → P (.mk t ct i p cs)) : ∀ n, P n
  | .mk t ct i p cs => h t ct i p cs (fun c hc => Node.ind_mem h c)
termination_by n => sizeOf n
decreasing_by
  have := List.sizeOf_lt_of_mem hc
  simp only [Node.mk.sizeOf_spec]
  omega

/-- `collect_node_data` emits exactly one record per node of the subtree. -/
theorem collect_length : ∀ (n : Node) (ptext : List Char) (d : Nat),
    (collect_node_data n ptext d).length = countNodes n := by
  intro n
  induction n using Node.ind_mem with
  | h t ct i p cs ih =>
    intro ptext d
    have hl : ∀ (cs' : List Node),
        (∀ c ∈ cs', ∀ pt dd, (collect_node_data c pt dd).length = countNodes c) →
        ∀ pt dd, (collectChildren cs' pt dd).length = countNodesList cs' := by
      intro cs'
      induction cs' with
      | nil => intro _ _ _; rfl
      | cons c cs'' ihl =>
        intro hmem pt dd
        simp only [collectChildren, countNodesList, List.length_append]
        rw [hmem c (by simp), ihl (fun x hx => hmem x (by simp [hx]))]
    simp only [collect_node_data, countNodes, List.length_cons]
    rw [hl cs ih]
    omega

/-- C5 (amended): the tabular export emits, via a pre-order traversal from
the root, exactly one record per node including the root itself; for a fresh
tree, after `grow("hello", 0)` the export yields exactly two records — the
root's (empty text, depth 0) and the "hello" record with parent text ""
(the root's text) and depth 1. -/
theorem export_one_record_per_node :
    (∀ (n : Node) (ptext : List Char) (d : Nat),
      (collect_node_data n ptext d).length = countNodes n)
    ∧ (Tree.new.grow "hello".toList 0).map Tree.export_records =
        some [⟨[], [], 0, 0, 0, none⟩, ⟨"hello".toList, [], 1, 1, 1, some 0⟩] :=
  ⟨collect_length, by decide⟩

end II

namespace II

theorem collectChildren_append (l1 l2 : List Node) (ptext : List Char) (d : Nat) :
    collectChildren (l1 ++ l2) ptext d =
      collectChildren l1 ptext d ++ collectChildren l2 ptext d := by
  induction l1 with
  | nil => simp [collectChildren]
  | cons c cs ih => simp [collectChildren, ih]

/-- Replacing the `i`-th child by a node whose records are the old ones plus
`L` changes the children's collected records by exactly `L`, up to order. -/
theorem collectChildren_set_perm (cs : List Node) (ptext : List Char) (d : Nat)
    (L : List NodeRecord) :
    ∀ (i : Nat) (ch ch' : Node), cs.get? i = some ch →
      List.Perm (collect_node_data ch' ptext d) (collect_node_data ch ptext d ++ L) →
      List.Perm (collectChildren (cs.set i ch') ptext d)
        (collectChildren cs ptext d ++ L) := by
  induction cs with
  | nil => intro i ch ch' hget; simp at hget
  | cons a as ih =>
    intro i ch ch' hget hperm
    cases i with
    | zero =>
      rw [List.get?_cons_zero] at hget
      injection hget with hae
      subst hae
      simp only [List.set, collectChildren]
      rw [List.append_assoc]
      refine (hperm.append_right (collectChildren as ptext d)).trans ?_
      rw [List.append_assoc]
      exact (List.perm_append_comm).append_left _
    | succ i' =>
      rw [List.get?_cons_succ] at hget
      simp only [List.set, collectChildren]
      rw [List.append_assoc]
      exact (ih i' ch ch' hget hperm).append_left _

/-- A successful `node_at_index` walk never consumes more steps than the
stream has entries. -/
theorem descend_le_length : ∀ (k : Nat) (s : List Nat) (n x : Node),
    descendSteps n s k = some x → k ≤ s.length := by
  intro k
  induction k with
  | zero => intro s n x _; exact Nat.zero_le _
  | succ k' ih =>
    intro s n x hd
    cases s with
    | nil => simp [descendSteps] at hd
    | cons i rest =>
      cases n with
      | mk t ct i0 p cs =>
        cases hget : cs.get? i with
        | none =>
          simp only [descendSteps, Node.children, hget] at hd
          exact Option.noConfusion hd
        | some ch =>
          simp only [descendSteps, Node.children, hget] at hd
          simpa using Nat.succ_le_succ (ih rest ch x hd)

/-- Core of `grow`: inserting a fresh child under the node reached by `k`
stream steps succeeds, changes the collected records by exactly the new
subtree's records (placed at the right parent text and depth), and the new
child is reachable by the old path prefix extended with the old child
count. -/
theorem insert_perm : ∀ (k : Nat) (s : List Nat) (n sel c : Node) (ptext : List Char)
    (d : Nat), descendSteps n s k = some sel →
    ∃ n', insertSteps n s k c = some n'
      ∧ List.Perm (collect_node_data n' ptext d)
          (collect_node_data n ptext d ++ collect_node_data c sel.text (d + k + 1))
      ∧ descendSteps n' (s.take k ++ [sel.children.length]) (k + 1) = some c := by
  intro k
  induction k with
  | zero =>
    intro s n sel c ptext d hd
    have hsel : n = sel := by simpa [descendSteps] using hd
    subst hsel
    cases n with
    | mk t ct i p cs =>
      have hins : insertSteps (Node.mk t ct i p cs) s 0 c =
          some ((Node.mk t ct i p cs).withChildren
            ((Node.mk t ct i p cs).children ++ [c])) := by
        simp only [insertSteps]
      refine ⟨_, hins, ?_, ?_⟩
      · simp only [Node.withChildren, Node.children, Node.text, collect_node_data,
          collectChildren_append, Nat.add_zero, List.cons_append]
        simp only [collectChildren, List.append_nil]
        exact List.Perm.refl _
      · simp only [List.take, List.nil_append, Node.withChildren, Node.children,
          descendSteps]
        simp only [List.get?_concat_length]
  | succ k' ih =>
    intro s n sel c ptext d hd
    cases s with
    | nil => simp [descendSteps] at hd
    | cons i rest =>
      cases n with
      | mk t ct i0 p cs =>
        cases hget : cs.get? i with
        | none =>
          simp only [descendSteps, Node.children, hget] at hd
          exact Option.noConfusion hd
        | some ch =>
          simp only [descendSteps, Node.children, hget] at hd
          obtain ⟨ch', hins, hperm, hdesc⟩ := ih rest ch sel c t (d + 1) hd
          have hlt : i < cs.length := (List.get?_eq_some.mp hget).choose
          refine ⟨Node.mk t ct i0 p (cs.set i ch'), ?_, ?_, ?_⟩
          · simp only [insertSteps, Node.children, hget, hins, Node.withChildren]
          · simp only [collect_node_data, Node.children]
            have harith : d + 1 + k' + 1 = d + (k' + 1) + 1 := by omega
            rw [harith] at hperm
            have hset := collectChildren_set_perm cs t (d + 1)
              (collect_node_data c sel.text (d + (k' + 1) + 1)) i ch ch' hget hperm
            exact hset.cons _
          · simp only [List.take, descendSteps, Node.children, List.cons_append]
            simp only [List.get?_set_eq_of_lt ch' hlt]
            exact hdesc

end II

namespace II

/-- C4: for a tree whose current path resolves at `atDepth` (`sel` is the
node there), a successful `grow(text, atDepth)` increases the total node
count by exactly one; the export records of the new tree are, up to order,
exactly the old records plus one fresh record for the new node (so every
other node's text, parent reference, creation timestamp and depth are
unchanged); the fresh record carries id `next_id`, strictly greater than
every id in the old tree when those are below `next_id` (which `grow`
preserves, see the freshness conjunct); the current path becomes the first
`atDepth` entries followed by the new child's branch index (the previous
child count of `sel`), has length `atDepth + 1`, and resolves to the newly
created node. -/
theorem grow_spec (t : Tree) (x : List Char) (d : Nat) (sel : Node) (t' : Tree)
    (hsel : descendSteps t.root t.current_stream d = some sel)
    (hgrow : t.grow x (d : Int) = some t')
    (hids : ∀ r ∈ collect_node_data t.root [] 0, r.node_id < t.next_id) :
    countNodes t'.root = countNodes t.root + 1
    ∧ List.Perm (collect_node_data t'.root [] 0)
        ((⟨x, sel.text, t.clock, d + 1, t.next_id, some sel.id⟩ : NodeRecord)
          :: collect_node_data t.root [] 0)
    ∧ (∀ r ∈ collect_node_data t'.root [] 0,
        r.node_id = t.next_id ∨ r.node_id < t.next_id)
    ∧ t'.next_id = t.next_id + 1
    ∧ t'.current_stream = t.current_stream.take d ++ [sel.children.length]
    ∧ t'.current_stream.length = d + 1
    ∧ descendSteps t'.root t'.current_stream (d + 1) =
        some (.mk x t.clock t.next_id (some sel.id) []) := by
  have htn : ((d : Nat) : Int).toNat = d := by omega
  have hpy : pyTake t.current_stream ((d : Nat) : Int) = t.current_stream.take d := by
    unfold pyTake
    rw [if_pos (Int.natCast_nonneg d), htn]
  obtain ⟨n', hins, hperm, hdesc⟩ :=
    insert_perm d t.current_stream t.root sel (.mk x t.clock t.next_id (some sel.id) [])
      [] 0 hsel
  simp only [Tree.grow, htn, hsel, hins, hpy] at hgrow
  have ht' : t' = Tree.mk n' (t.current_stream.take d ++ [sel.children.length])
      (t.next_id + 1) (t.clock + 1) :=
    ((Option.some.injEq _ _).mp hgrow).symm
  subst ht'
  have hnew : collect_node_data (.mk x t.clock t.next_id (some sel.id) []) sel.text
      (0 + d + 1) = [⟨x, sel.text, t.clock, d + 1, t.next_id, some sel.id⟩] := by
    simp only [collect_node_data, collectChildren, Nat.zero_add]
  rw [hnew] at hperm
  have hperm2 : List.Perm (collect_node_data n' [] 0)
      ((⟨x, sel.text, t.clock, d + 1, t.next_id, some sel.id⟩ : NodeRecord)
        :: collect_node_data t.root [] 0) :=
    hperm.trans (List.perm_append_singleton _ _)
  have hdle : d ≤ t.current_stream.length := descend_le_length d t.current_stream t.root sel hsel
  refine ⟨?_, hperm2, ?_, rfl, rfl, ?_, hdesc⟩
  · have hlen := hperm2.length_eq
    rw [List.length_cons, collect_length, collect_length] at hlen
    simpa using hlen
  · intro r hr
    rcases List.mem_cons.mp (hperm2.mem_iff.mp hr) with h | h
    · exact Or.inl (by rw [h])
    · exact Or.inr (hids r h)
  · simp [List.length_take, Nat.min_eq_left hdle]

/-- Witness for C4: growing `['h']` at depth 0 on a fresh tree adds exactly
one node. -/
theorem grow_spec_witness :
    countNodes
        (Tree.mk (Node.mk [] 0 0 none [Node.mk ['h'] 1 1 (some 0) []]) [0] 2 2).root =
      countNodes Tree.new.root + 1 :=
  (grow_spec Tree.new ['h'] 0 (Node.mk [] 0 0 none [])
    (Tree.mk (Node.mk [] 0 0 none [Node.mk ['h'] 1 1 (some 0) []]) [0] 2 2)
    rfl rfl (by decide)).1

end II

namespace II

/-- If the whole stream resolves, so does every prefix walk. -/
theorem descend_prefix : ∀ (s : List Nat) (n : Node) (k m : Nat), k ≤ m →
    (descendSteps n s m).isSome = true → (descendSteps n s k).isSome = true := by
  intro s
  induction s with
  | nil =>
    intro n k m hkm hm
    cases m with
    | zero =>
      have hk : k = 0 := Nat.le_zero.mp hkm
      subst hk
      rfl
    | succ m' => simp [descendSteps] at hm
  | cons i rest ih =>
    intro n k m hkm hm
    cases k with
    | zero => rfl
    | succ k' =>
      cases m with
      | zero => omega
      | succ m' =>
        cases n with
        | mk t ct i0 p cs =>
          cases hget : cs.get? i with
          | none =>
            simp only [descendSteps, Node.children, hget, Option.isSome_none] at hm
            exact absurd hm (by decide)
          | some c =>
            simp only [descendSteps, Node.children, hget] at hm ⊢
            exact ih c k' m' (by omega) hm

/-- Under the path invariant, the upward search loop of `switch_stream`
never raises, whatever level it starts from (up to the stream length). -/
theorem switchSearch_isSome (root : Node) (stream : List Nat) (inc : Int) (le : Bool)
    (hv : streamValid root stream = true) :
    ∀ j, j ≤ stream.length → (switchSearch root stream inc le j).isSome = true
  | 0, _ => rfl
  | 1, _ => rfl
  | j + 2, hj => by
    have hpar : (descendSteps root stream (j + 1)).isSome = true :=
      descend_prefix stream root (j + 1) stream.length (by omega)
        (by simpa [streamValid] using hv)
    obtain ⟨parent, hp⟩ := Option.isSome_iff_exists.mp hpar
    obtain ⟨si, hs⟩ : ∃ si, stream.get? (j + 1) = some si :=
      ⟨_, List.get?_eq_get (by omega)⟩
    unfold switchSearch
    simp only [hp, hs]
    by_cases hval : 0 ≤ (si : Int) + inc ∧ (si : Int) + inc < (parent.children.length : Int)
    · rw [if_pos hval]
      obtain ⟨nd, hn⟩ : ∃ nd, parent.children.get? ((si : Int) + inc).toNat = some nd :=
        ⟨_, List.get?_eq_get (by omega)⟩
      rw [List.get?_eq_getElem?] at hn
      simp [hn]
    · rw [if_neg hval]
      exact switchSearch_isSome root stream inc le hv (j + 1) (by omega)

/-- Under the path invariant, `switch_stream` never raises when called with
an index at most the stream length. -/
theorem switch_stream_isSome (t : Tree) (index inc : Int) (le : Bool)
    (hv : streamValid t.root t.current_stream = true)
    (hle : index.toNat ≤ t.current_stream.length) :
    (t.switch_stream index inc le).isSome = true := by
  unfold Tree.switch_stream
  dsimp only
  cases hss : switchSearch t.root t.current_stream inc
      (le || decide (index = (t.current_stream.length : Int))) index.toNat with
  | none =>
    have := switchSearch_isSome t.root t.current_stream inc
      (le || decide (index = (t.current_stream.length : Int))) hv index.toNat hle
    rw [hss] at this
    simp at this
  | some o => cases o <;> simp

/-- Under the path invariant and with `selected_index` within the path,
`set_reading_mode` succeeds and ends in reading mode. -/
theorem set_reading_mode_reading (cfg : Int) (e : Editor)
    (hv : streamValid e.tree.root e.tree.current_stream = true)
    (h0 : 0 ≤ e.selected_index)
    (h1 : e.selected_index ≤ (e.tree.current_stream.length : Int)) :
    ∃ e', e.set_reading_mode cfg = some e' ∧ e'.reading_mode = true := by
  unfold Editor.set_reading_mode
  dsimp only
  split
  · have hle : (e.selected_index + 1 - 1).toNat ≤ e.tree.current_stream.length := by omega
    have hs := switch_stream_isSome e.tree (e.selected_index + 1 - 1) 1 true hv hle
    cases hres : e.tree.switch_stream (e.selected_index + 1 - 1) 1 true with
    | none => rw [hres] at hs; simp at hs
    | some r =>
      obtain ⟨s', i'⟩ := r
      exact ⟨_, rfl, rfl⟩
  · exact ⟨_, rfl, rfl⟩

/-- In writing mode, `k` timer events with `k` strictly below the timer value
only decrement the timer, leaving every other field (mode included)
unchanged. -/
theorem timer_decrements (cfg : Int) : ∀ (k : Nat) (v : Int) (e : Editor),
    e.reading_mode = false → e.current_timer = v → (k : Int) < v →
    timerRun cfg k e = some { e with current_timer := v - (k : Int) } := by
  intro k
  induction k with
  | zero =>
    intro v e hr ht hk
    show some e = some { e with current_timer := v - ((0 : Nat) : Int) }
    rw [show v - ((0 : Nat) : Int) = e.current_timer by omega]
  | succ k' ih =>
    intro v e hr ht hk
    have hstep : e.handle_keypress cfg Key.timer =
        some { e with current_timer := e.current_timer - 1 } := by
      unfold Editor.handle_keypress Editor.next_line
      rw [hr]
      dsimp only
      rw [if_neg (by omega : ¬ (e.current_timer - 1 = 0))]
      simp
    show (match e.handle_keypress cfg Key.timer with
          | none => none
          | some e' => timerRun cfg k' e') = _
    rw [hstep]
    show timerRun cfg k' { e with current_timer := e.current_timer - 1 } = _
    rw [ih (v - 1) { e with current_timer := e.current_timer - 1 } hr (by dsimp only; omega)
      (by omega)]
    have harith : v - 1 - (k' : Int) = v - ((k' + 1 : Nat) : Int) := by push_cast; ring
    rw [harith]

/-- Unfolding one timer event from the back of an iterated run. -/
theorem timerRun_succ_back (cfg : Int) : ∀ (k : Nat) (e : Editor),
    timerRun cfg (k + 1) e =
      (timerRun cfg k e).bind (fun x => x.handle_keypress cfg Key.timer) := by
  intro k
  induction k with
  | zero =>
    intro e
    cases h : e.handle_keypress cfg Key.timer with
    | none => simp [timerRun, h]
    | some e' => simp [timerRun, h]
  | succ k' ih =>
    intro e
    show (match e.handle_keypress cfg Key.timer with
          | none => none
          | some e' => timerRun cfg (k' + 1) e') =
        (match e.handle_keypress cfg Key.timer with
          | none => none
          | some e' => timerRun cfg k' e').bind (fun x => x.handle_keypress cfg Key.timer)
    cases h : e.handle_keypress cfg Key.timer with
    | none => rfl
    | some e1 => exact ih e1

end II

namespace II

/-- C7: from any writing-mode state with a valid path, `selected_index`
within the path, and `current_timer` equal to the configured initial value
`N > 0`, a run of `N` consecutive timer-expiry events with no keypress
switches into reading mode exactly once, at the `N`-th event and not
before: each of the first `N - 1` events only decrements `current_timer`
(leaving `reading_mode` false and every other field unchanged), and the
`N`-th event performs the mode switch. -/
theorem autoscroll_fires_at_nth_timer_event (cfg : Int) (N : Nat) (e : Editor)
    (hN : cfg = (N : Int)) (hpos : 0 < N)
    (hw : e.reading_mode = false) (ht : e.current_timer = cfg)
    (hv : streamValid e.tree.root e.tree.current_stream = true)
    (h0 : 0 ≤ e.selected_index)
    (h1 : e.selected_index ≤ (e.tree.current_stream.length : Int)) :
    (∀ k : Nat, k < N →
      timerRun cfg k e = some { e with current_timer := cfg - (k : Int) })
    ∧ (∃ e', timerRun cfg N e = some e' ∧ e'.reading_mode = true) := by
  constructor
  · intro k hk
    exact timer_decrements cfg k cfg e hw ht (by omega)
  · obtain ⟨M, hM⟩ : ∃ M, N = M + 1 := ⟨N - 1, by omega⟩
    subst hM
    have hrunM : timerRun cfg M e = some { e with current_timer := cfg - (M : Int) } :=
      timer_decrements cfg M cfg e hw ht (by omega)
    obtain ⟨e', he', hr'⟩ := set_reading_mode_reading cfg
      { e with current_timer := cfg - (M : Int) - 1 } hv h0 h1
    refine ⟨e', ?_, hr'⟩
    rw [timerRun_succ_back, hrunM]
    show Editor.handle_keypress _ cfg Key.timer = some e'
    unfold Editor.handle_keypress Editor.next_line
    rw [show Editor.reading_mode { e with current_timer := cfg - (M : Int) } = false from hw]
    dsimp only
    rw [if_pos (by omega : cfg - (M : Int) - 1 = 0)]
    exact he'

/-- Witness for C7 at the initial state with configured value 3: two timer
events only decrement the timer, the third switches to reading mode. -/
theorem autoscroll_fires_at_nth_timer_event_witness :
    timerRun 3 2 (initial_editor 3) =
      some { initial_editor 3 with current_timer := 3 - ((2 : Nat) : Int) }
    ∧ (∃ e', timerRun 3 3 (initial_editor 3) = some e' ∧ e'.reading_mode = true) := by
  have h := autoscroll_fires_at_nth_timer_event 3 3 (initial_editor 3) rfl (by decide)
    rfl rfl (by decide) (by decide) (by decide)
  exact ⟨h.1 2 (by decide), h.2⟩

end II

namespace II

theorem invOK_of_eq_fields (e e' : Editor) (h1 : e'.current_text = e.current_text)
    (h2 : e'.cursor_position = e.cursor_position) (h : invOK e) : invOK e' :=
  ⟨by rw [h2]; exact h.1, by rw [h1, h2]; exact h.2⟩

theorem invOK_of_reset (e' : Editor) (h1 : e'.current_text = [])
    (h2 : e'.cursor_position = 0) : invOK e' :=
  ⟨by rw [h2], by rw [h1, h2]; simp⟩

theorem next_para_fields (e : Editor) (keep : Bool) :
    (e.next_para keep).current_text = e.current_text
    ∧ (e.next_para keep).cursor_position = e.cursor_position := by
  unfold Editor.next_para
  dsimp only
  split
  · split <;> exact ⟨rfl, rfl⟩
  · exact ⟨rfl, rfl⟩

theorem prev_para_fields (e : Editor) :
    e.prev_para.current_text = e.current_text
    ∧ e.prev_para.cursor_position = e.cursor_position := by
  unfold Editor.prev_para
  dsimp only
  split <;> exact ⟨rfl, rfl⟩

theorem prev_line_fields (e e' : Editor) (h : e.prev_line = some e') :
    e'.current_text = e.current_text ∧ e'.cursor_position = e.cursor_position := by
  unfold Editor.prev_line at h
  dsimp only at h
  repeat' split at h
  all_goals first
    | exact Option.noConfusion h
    | (injection h with h2; subst h2; exact ⟨rfl, rfl⟩)

theorem set_reading_mode_fields (cfg : Int) (e e' : Editor)
    (h : e.set_reading_mode cfg = some e') :
    e'.current_text = [] ∧ e'.cursor_position = 0 := by
  unfold Editor.set_reading_mode at h
  dsimp only at h
  repeat' split at h
  all_goals first
    | exact Option.noConfusion h
    | (injection h with h2; subst h2; exact ⟨rfl, rfl⟩)

theorem submit_para_fields (cfg : Int) (e e' : Editor)
    (h : e.submit_para cfg = some e') :
    e'.current_text = [] ∧ e'.cursor_position = 0 := by
  unfold Editor.submit_para at h
  repeat' split at h
  all_goals first
    | exact Option.noConfusion h
    | (injection h with h2; subst h2; exact ⟨rfl, rfl⟩)

theorem lateralMove_fields (e : Editor) (inc : Int) (e' : Editor)
    (h : e.lateralMove inc = some e') :
    e'.current_text = e.current_text ∧ e'.cursor_position = e.cursor_position := by
  unfold Editor.lateralMove at h
  repeat' split at h
  all_goals first
    | exact Option.noConfusion h
    | (injection h with h2; subst h2; exact ⟨rfl, rfl⟩)

theorem next_line_fields (cfg : Int) (e e' : Editor) (h : e.next_line cfg = some e') :
    (e'.current_text = e.current_text ∧ e'.cursor_position = e.cursor_position)
    ∨ (e'.current_text = [] ∧ e'.cursor_position = 0) := by
  unfold Editor.next_line at h
  dsimp only at h
  split at h
  · split at h
    · exact Option.noConfusion h
    · split at h
      · injection h with h2
        subst h2
        exact Or.inl ⟨(next_para_fields _ _).1, (next_para_fields _ _).2⟩
      · injection h with h2
        subst h2
        exact Or.inl ⟨rfl, rfl⟩
  · split at h
    · exact Or.inr (set_reading_mode_fields cfg _ _ h)
    · injection h with h2
      subst h2
      exact Or.inl ⟨rfl, rfl⟩

theorem iterPrevLine_fields : ∀ (k : Nat) (e e' : Editor), iterPrevLine k e = some e' →
    e'.current_text = e.current_text ∧ e'.cursor_position = e.cursor_position := by
  intro k
  induction k with
  | zero =>
    intro e e' h
    injection h with h2
    subst h2
    exact ⟨rfl, rfl⟩
  | succ k' ih =>
    intro e e' h
    cases hp : e.prev_line with
    | none =>
      unfold iterPrevLine at h
      rw [hp] at h
      exact Option.noConfusion h
    | some e1 =>
      unfold iterPrevLine at h
      rw [hp] at h
      dsimp only at h
      obtain ⟨ha, hb⟩ := prev_line_fields e e1 hp
      obtain ⟨hc, hd⟩ := ih e1 e' h
      exact ⟨hc.trans ha, hd.trans hb⟩

theorem charReading_fields (e : Editor) (c : Char) (e1 : Editor)
    (h : e.charReading c = some e1) :
    e1.current_text = e.current_text ∧ e1.cursor_position = e.cursor_position := by
  unfold Editor.charReading at h
  split at h
  · injection h with h2
    subst h2
    exact ⟨(next_para_fields _ _).1, (next_para_fields _ _).2⟩
  · split at h
    · injection h with h2
      subst h2
      exact ⟨(prev_para_fields _).1, (prev_para_fields _).2⟩
    · split at h
      · exact lateralMove_fields _ _ _ h
      · split at h
        · exact lateralMove_fields _ _ _ h
        · split at h
          · repeat' split at h
            all_goals first
              | exact Option.noConfusion h
              | (injection h with h2; subst h2; exact ⟨rfl, rfl⟩)
          · injection h with h2
            subst h2
            exact ⟨rfl, rfl⟩

end II

namespace II

/-- Every successfully dispatched event preserves the cursor invariant. -/
theorem handle_keypress_inv (cfg : Int) (k : Key) (e e' : Editor)
    (hinv : invOK e) (h : e.handle_keypress cfg k = some e') : invOK e' := by
  obtain ⟨hinv0, hinv1⟩ := hinv
  cases k with
  | enter =>
    unfold Editor.handle_keypress at h
    dsimp only at h
    split at h
    · injection h with h2
      subst h2
      exact ⟨hinv0, hinv1⟩
    · split at h
      · obtain ⟨ha, hb⟩ := submit_para_fields cfg _ _ h
        exact invOK_of_reset e' ha hb
      · split at h
        · obtain ⟨ha, hb⟩ := set_reading_mode_fields cfg _ _ h
          exact invOK_of_reset e' ha hb
        · injection h with h2
          subst h2
          exact ⟨hinv0, hinv1⟩
  | tab =>
    unfold Editor.handle_keypress at h
    dsimp only at h
    split at h
    · injection h with h2
      subst h2
      exact invOK_of_eq_fields e _ (next_para_fields _ _).1 (next_para_fields _ _).2
        ⟨hinv0, hinv1⟩
    · split at h
      · obtain ⟨ha, hb⟩ := set_reading_mode_fields cfg _ _ h
        exact invOK_of_reset e' ha hb
      · injection h with h2
        subst h2
        exact ⟨hinv0, hinv1⟩
  | backspace =>
    unfold Editor.handle_keypress at h
    dsimp only at h
    split at h
    · next hcond =>
      injection h with h2
      subst h2
      have htlen : 1 ≤ e.current_text.length := by
        rcases hcond with ⟨hne, _⟩
        cases hx : e.current_text with
        | nil => exact absurd hx hne
        | cons a as => simp [hx]
      constructor
      · dsimp only
        omega
      · dsimp only
        unfold pyTake pyDrop
        split_ifs <;>
          simp only [List.length_append, List.length_take, List.length_drop] <;>
          omega
    · injection h with h2
      subst h2
      exact ⟨hinv0, hinv1⟩
  | right =>
    unfold Editor.handle_keypress at h
    dsimp only at h
    split at h
    · obtain ⟨ha, hb⟩ := lateralMove_fields _ _ _ h
      exact invOK_of_eq_fields e e' ha hb ⟨hinv0, hinv1⟩
    · injection h with h2
      subst h2
      constructor
      · dsimp only
        omega
      · dsimp only
        omega
  | left =>
    unfold Editor.handle_keypress at h
    dsimp only at h
    split at h
    · obtain ⟨ha, hb⟩ := lateralMove_fields _ _ _ h
      exact invOK_of_eq_fields e e' ha hb ⟨hinv0, hinv1⟩
    · injection h with h2
      subst h2
      constructor
      · dsimp only
        omega
      · dsimp only
        omega
  | down =>
    unfold Editor.handle_keypress at h
    dsimp only at h
    rcases next_line_fields cfg e e' h with hcase | hcase
    · exact invOK_of_eq_fields e e' hcase.1 hcase.2 ⟨hinv0, hinv1⟩
    · exact invOK_of_reset e' hcase.1 hcase.2
  | up =>
    unfold Editor.handle_keypress at h
    dsimp only at h
    obtain ⟨ha, hb⟩ := prev_line_fields e e' h
    exact invOK_of_eq_fields e e' ha hb ⟨hinv0, hinv1⟩
  | escape =>
    unfold Editor.handle_keypress at h
    dsimp only at h
    split at h
    · injection h with h2
      subst h2
      exact ⟨hinv0, hinv1⟩
    · cases hsub : (if e.current_text ≠ [] then e.submit_para cfg else some e) with
      | none =>
        rw [hsub] at h
        exact Option.noConfusion h
      | some e1 =>
        rw [hsub] at h
        dsimp only at h
        obtain ⟨ha, hb⟩ := iterPrevLine_fields _ e1 e' h
        have hinv1' : invOK e1 := by
          by_cases htext : e.current_text = []
          · rw [if_neg (by simpa using htext)] at hsub
            injection hsub with h2
            subst h2
            exact ⟨hinv0, hinv1⟩
          · rw [if_pos htext] at hsub
            obtain ⟨hc, hd⟩ := submit_para_fields cfg _ _ hsub
            exact invOK_of_reset e1 hc hd
        exact invOK_of_eq_fields e1 e' ha hb hinv1'
  | char c =>
    unfold Editor.handle_keypress at h
    dsimp only at h
    cases hin : (if e.reading_mode then e.charReading c else some e) with
    | none =>
      rw [hin] at h
      exact Option.noConfusion h
    | some e1 =>
      rw [hin] at h
      dsimp only at h
      have hf : e1.current_text = e.current_text ∧ e1.cursor_position = e.cursor_position := by
        by_cases hr : e.reading_mode
        · rw [if_pos hr] at hin
          exact charReading_fields e c e1 hin
        · rw [if_neg hr] at hin
          injection hin with h2
          subst h2
          exact ⟨rfl, rfl⟩
      split at h
      · injection h with h2
        subst h2
        exact invOK_of_eq_fields e _ hf.1 hf.2 ⟨hinv0, hinv1⟩
      · injection h with h2
        subst h2
        constructor
        · dsimp only
          omega
        · dsimp only
          rw [hf.1, hf.2]
          unfold pyTake pyDrop
          split_ifs <;>
            simp only [List.length_append, List.length_take, List.length_drop,
              List.length_cons] <;>
            omega
  | timer =>
    unfold Editor.handle_keypress at h
    dsimp only at h
    rcases next_line_fields cfg e e' h with hcase | hcase
    · exact invOK_of_eq_fields e e' hcase.1 hcase.2 ⟨hinv0, hinv1⟩
    · exact invOK_of_reset e' hcase.1 hcase.2

end II

namespace II

theorem run_fold_none (cfg : Int) : ∀ (ks : List Key),
    ks.foldl (fun acc k => acc.bind (fun e => e.handle_keypress cfg k))
      (none : Option Editor) = none := by
  intro ks
  induction ks with
  | nil => rfl
  | cons k ks ih =>
    show ks.foldl (fun acc k => acc.bind (fun e => e.handle_keypress cfg k))
      (Option.bind (none : Option Editor) (fun e => e.handle_keypress cfg k)) = none
    exact ih

theorem run_fold_inv (cfg : Int) : ∀ (ks : List Key) (e0 e' : Editor), invOK e0 →
    ks.foldl (fun acc k => acc.bind (fun e => e.handle_keypress cfg k)) (some e0) = some e' →
    invOK e' := by
  intro ks
  induction ks with
  | nil =>
    intro e0 e' h0 h
    injection h with h2
    subst h2
    exact h0
  | cons k ks ih =>
    intro e0 e' h0 h
    show invOK e'
    have h' : ks.foldl (fun acc k => acc.bind (fun e => e.handle_keypress cfg k))
        (e0.handle_keypress cfg k) = some e' := h
    cases hstep : e0.handle_keypress cfg k with
    | none =>
      rw [hstep, run_fold_none cfg ks] at h'
      exact Option.noConfusion h'
    | some e1 =>
      rw [hstep] at h'
      exact ih e1 e' (handle_keypress_inv cfg k e0 e1 h0 hstep) h'

/-- C10: in every editor state reachable from the initial state by a
successfully dispatched sequence of key and timer events, the cursor
position satisfies `0 ≤ cursor_position ≤ length of current_text` (each
handler preserves the bounds: insertion advances text and cursor together,
the arrows clamp at 0 and at the text length, and submit, set-reading-mode
and backspace never drive the cursor negative or past the end). -/
theorem cursor_position_bounds_invariant (cfg : Int) (ks : List Key) (e' : Editor)
    (h : run_keys cfg ks = some e') :
    0 ≤ e'.cursor_position ∧ e'.cursor_position ≤ (e'.current_text.length : Int) :=
  run_fold_inv cfg ks (initial_editor cfg) e' (invOK_of_reset (initial_editor cfg) rfl rfl) h

/-- Witness for C10: the state reached by typing 'a' and pressing the left
arrow satisfies the cursor bounds. -/
theorem cursor_position_bounds_invariant_witness :
    0 ≤ editorAfterALeft.cursor_position
    ∧ editorAfterALeft.cursor_position ≤ (editorAfterALeft.current_text.length : Int) :=
  cursor_position_bounds_invariant 20 [.char 'a', .left] editorAfterALeft rfl

end II
